import Mathlib

/-!
Verification of the coolfluid3 component runtime against its specification.

The runtime core (component tree, option store, type registry, path
resolution with links, per-instance signals) is exercised by the sources in
this excerpt (`src/src/Mesh/CMesh.cpp`, the SFDM solver test, the builder
translation units) but its own implementation files are not part of the
excerpt; the runtime operations below are therefore modelled from the
specification, while `CMesh`'s constructor and `signal_write_mesh` are
embedded directly from `src/src/Mesh/CMesh.cpp`.
-/

namespace CF3

/-- Modelled from the spec: §3 Option value universe — "bool, integer,
unsigned integer, real, string, URI, or ordered list of one of these".
(The `real` case is floating point and is left out of the embedding.) -/
inductive Value where
  | vBool : Bool → Value
  | vInt : Int → Value
  | vUInt : Nat → Value
  | vStr : String → Value
  | vUri : String → Value
  | vList : List Value → Value

mutual

/-- Structural equality test on values (the nested list case prevents a
derived instance). -/
def beqValue : Value → Value → Bool
  | .vBool a, .vBool b => a == b
  | .vInt a, .vInt b => a == b
  | .vUInt a, .vUInt b => a == b
  | .vStr a, .vStr b => a == b
  | .vUri a, .vUri b => a == b
  | .vList as, .vList bs => beqValueList as bs
  | _, _ => false

/-- Pointwise equality test on value lists. -/
def beqValueList : List Value → List Value → Bool
  | [], [] => true
  | a :: as, b :: bs => beqValue a b && beqValueList as bs
  | _, _ => false

end

/-- Modelled from the spec: declared value types of an Option (§3). -/
inductive VType where
  | tBool : VType
  | tInt : VType
  | tUInt : VType
  | tStr : VType
  | tUri : VType
  | tList : VType → VType
deriving DecidableEq

mutual

/-- Modelled from the spec: the type check a `configure` call performs
against the Option's declared type (§4.3). -/
def hasType : Value → VType → Bool
  | .vBool _, .tBool => true
  | .vInt _, .tInt => true
  | .vUInt _, .tUInt => true
  | .vStr _, .tStr => true
  | .vUri _, .tUri => true
  | .vList vs, .tList t => hasTypeList vs t
  | _, _ => false

/-- Every element of the list carries the element type. -/
def hasTypeList : List Value → VType → Bool
  | [], _ => true
  | v :: vs, t => hasType v t && hasTypeList vs t

end

/-- Modelled from the spec: §3 Option "optional validation constraint
(type check, numeric range, enumeration membership)". -/
inductive Restriction where
  | free : Restriction
  | range (lo hi : Int) : Restriction
  | oneOf (allowed : List Value) : Restriction

/-- Numeric view of a value, used by the range constraint. -/
def asInt : Value → Option Int
  | .vInt i => some i
  | .vUInt n => some (n : Int)
  | _ => none

/-- Modelled from the spec: applying the validation constraint (§4.3). -/
def validate : Restriction → Value → Bool
  | .free, _ => true
  | .range lo hi, v =>
    match asInt v with
    | some i => decide (lo ≤ i) && decide (i ≤ hi)
    | none => false
  | .oneOf allowed, v => allowed.any (fun a => beqValue a v)

/-- Modelled from the spec: the error taxonomy of §7 (the wire-level errors
are out of scope of this development; `ValueNotFound` stands for a
`configure` call naming an option the component does not expose). -/
inductive CErr where
  | DuplicateName : CErr
  | ComponentNotFound : CErr
  | DanglingLink : CErr
  | CyclicLink : CErr
  | UnknownType : CErr
  | DuplicateRegistration : CErr
  | InvalidType : CErr
  | OutOfRange : CErr
  | Locked : CErr
  | UnknownSignal : CErr
  | ArgumentMismatch : CErr
  | ValueNotFound : CErr
deriving DecidableEq

/-- Modelled from the spec: §3 Option — name, declared type, default value,
current value, optional externally bound storage, ordered trigger callbacks
(identified here by registration ids), validation constraint, and the
"locked after first set" flag. -/
structure COption where
  name : String
  declType : VType
  defVal : Value
  current : Value
  bound : Option Value
  triggers : List Nat
  restr : Restriction
  locked : Bool
  wasSet : Bool

/-- Modelled from the spec: §4.3 `configure` on a single Option — a locked
Option that was already set fails `Locked`; then the value is type-checked
against the declared type (`InvalidType`) and validated (`OutOfRange`); on
success the new value is committed, written through to the bound external
storage if one is linked, and the registered triggers fire in registration
order (returned here as the list of fired trigger ids). -/
def configureOpt (o : COption) (v : Value) : Except CErr (COption × List Nat) :=
  if o.locked && o.wasSet then .error .Locked
  else if ¬ hasType v o.declType then .error .InvalidType
  else if ¬ validate o.restr v then .error .OutOfRange
  else .ok ({ o with current := v, bound := o.bound.map (fun _ => v), wasSet := true },
            o.triggers)

/-- Modelled from the spec: §3 Signal — name, human-readable description and
a handler bound to the owning instance (handlers are identified by ids so
that distinct bound closures are distinguishable). The argument schema plays
no role in the claims below and is omitted. -/
structure CSignal where
  name : String
  descr : String
  handler : Nat

/-- Modelled from the spec: §3 — a component either owns content (normal) or
is a Link storing the target's path (kept as absolute path segments). -/
inductive CompKind where
  | normal : CompKind
  | link (target : List String) : CompKind

/-- Modelled from the spec: §3 Component — unique name among siblings, a
kind (normal or Link), an Option store, a Property store, a Signal table and
the ordered list of owned children (insertion order preserved). The
ownership tree is the inductive structure itself, so acyclicity and the
single-parent property are intrinsic to the representation. -/
inductive Comp where
  | mk (name : String) (kind : CompKind) (opts : List COption)
       (props : List (String × Value)) (sigs : List CSignal)
       (children : List Comp) : Comp

def Comp.name : Comp → String
  | .mk n _ _ _ _ _ => n

def Comp.kind : Comp → CompKind
  | .mk _ k _ _ _ _ => k

def Comp.opts : Comp → List COption
  | .mk _ _ os _ _ _ => os

def Comp.props : Comp → List (String × Value)
  | .mk _ _ _ ps _ _ => ps

def Comp.sigs : Comp → List CSignal
  | .mk _ _ _ _ sg _ => sg

def Comp.children : Comp → List Comp
  | .mk _ _ _ _ _ cs => cs

/-- Replace the children list, keeping every other field. -/
def Comp.withChildren : Comp → List Comp → Comp
  | .mk n k os ps sg _, cs => .mk n k os ps sg cs

/-- Rename a component (used by the factory when instantiating a type). -/
def Comp.withName : Comp → String → Comp
  | .mk _ k os ps sg cs, n => .mk n k os ps sg cs

/-- First child carrying the given name (insertion order). -/
def childNamed (c : Comp) (n : String) : Option Comp :=
  c.children.find? (fun ch => ch.name == n)

/-- The occupant of a position in the tree: walk the segments by child-name
lookup. A component's `full_path()` is its position's segment list. -/
def getAtPath (c : Comp) : List String → Option Comp
  | [] => some c
  | n :: rest =>
    match childNamed c n with
    | some ch => getAtPath ch rest
    | none => none

/-- No component of the list is named `nm`. -/
def nameFresh (nm : String) : List Comp → Bool
  | [] => true
  | c :: cs => (c.name != nm) && nameFresh nm cs

/-- Sibling names are pairwise distinct. -/
def namesNodup : List Comp → Bool
  | [] => true
  | c :: cs => nameFresh c.name cs && namesNodup cs

mutual

/-- The invariant claimed by spec §8: throughout the tree no two live
siblings share a name. -/
def siblingsUnique : Comp → Bool
  | .mk _ _ _ _ _ cs => namesNodup cs && siblingsUniqueList cs

/-- `siblingsUnique` for every member of a children list. -/
def siblingsUniqueList : List Comp → Bool
  | [] => true
  | c :: cs => siblingsUnique c && siblingsUniqueList cs

end

mutual

/-- Modelled from the spec: full well-formedness of a tree — sibling names
unique, the reserved names `.` and `..` never used as component names (§6),
and Links own no content (§3), i.e. no children. -/
def wf : Comp → Bool
  | .mk _ k _ _ _ cs =>
    namesNodup cs
    && cs.all (fun ch => ch.name != "." && ch.name != "..")
    && (match k with
        | .link _ => cs.isEmpty
        | .normal => true)
    && wfList cs

/-- `wf` for every member of a children list. -/
def wfList : List Comp → Bool
  | [] => true
  | c :: cs => wf c && wfList cs

end

/-- Modelled from the spec: §4.2 — outcome of following one Link: the
target resolution is adopted when it succeeds, a cycle guard trip stays
`CyclicLink`, and any other failure of the target path makes the Link
dangling (`DanglingLink`). -/
def linkFollow (r : Except CErr (List String)) : Except CErr (List String) :=
  match r with
  | .ok q => .ok q
  | .error .CyclicLink => .error .CyclicLink
  | .error _ => .error .DanglingLink

mutual

/-- Modelled from the spec: §4.2 — when resolution lands on a component the
Link targets are followed transparently, bounded by the remaining hop count
`hops` (guard against alias cycles, `CyclicLink`). Positions (`pos`) are
absolute segment lists rooted at `root`. -/
def derefPos (root : Comp) (pos : List String) (hops : Nat) :
    Except CErr (List String) :=
  match getAtPath root pos with
  | none => .error .ComponentNotFound
  | some c =>
    match c.kind with
    | .normal => .ok pos
    | .link target =>
      match hops with
      | 0 => .error .CyclicLink
      | h + 1 => linkFollow (resolveSegs root [] target h)
termination_by (hops, 0)

/-- Modelled from the spec: §4.2 `resolve` — walk the remaining segments
from the position `pos`; `.` stays, `..` goes to the parent, any other
segment is a child-name lookup failing `ComponentNotFound` when no child
matches; every landing transparently follows Links via `derefPos`. -/
def resolveSegs (root : Comp) (pos : List String) (segs : List String)
    (hops : Nat) : Except CErr (List String) :=
  match segs with
  | [] => .ok pos
  | s :: rest =>
    if s == "." then resolveSegs root pos rest hops
    else if s == ".." then
      match pos with
      | [] => .error .ComponentNotFound
      | _ :: _ => resolveSegs root pos.dropLast rest hops
    else
      match derefPos root (pos ++ [s]) hops with
      | .ok pos2 => resolveSegs root pos2 rest hops
      | .error e => .error e
termination_by (hops, segs.length + 1)

end

/-- Modelled from the spec: resolution of an absolute path (`//` grammar)
starts at the global root. -/
def resolveAbs (root : Comp) (segs : List String) (hops : Nat) :
    Except CErr (List String) :=
  resolveSegs root [] segs hops

theorem wfList_mem {cs : List Comp} {c : Comp} (h : wfList cs = true)
    (hc : c ∈ cs) : wf c = true := by
  induction cs with
  | nil => cases hc
  | cons d ds ih =>
    rw [wfList] at h
    simp only [Bool.and_eq_true] at h
    rcases List.mem_cons.mp hc with rfl | hmem
    · exact h.1
    · exact ih h.2 hmem

theorem wf_mk (n : String) (k : CompKind) (os : List COption)
    (ps : List (String × Value)) (sg : List CSignal) (cs : List Comp) :
    wf (Comp.mk n k os ps sg cs) =
      (namesNodup cs
        && cs.all (fun ch => ch.name != "." && ch.name != "..")
        && (match k with
            | .link _ => cs.isEmpty
            | .normal => true)
        && wfList cs) := by
  rw [wf.eq_def]

theorem wf_child {c ch : Comp} {n : String} (h : wf c = true)
    (hch : childNamed c n = some ch) :
    wf ch = true ∧ ch.name = n ∧ ch.name ≠ "." ∧ ch.name ≠ ".." := by
  rw [childNamed] at hch
  have hmem : ch ∈ c.children := List.mem_of_find?_eq_some hch
  have hpred := List.find?_some hch
  have hname : ch.name = n := eq_of_beq hpred
  cases c with
  | mk nm k os ps sg cs =>
    rw [wf_mk] at h
    simp only [Bool.and_eq_true] at h
    obtain ⟨⟨⟨hnodup, hall⟩, _⟩, hlist⟩ := h
    have hmem' : ch ∈ cs := hmem
    have hres := List.all_eq_true.mp hall ch hmem'
    simp only [Bool.and_eq_true, bne_iff_ne] at hres
    exact ⟨wfList_mem hlist hmem', hname, hres.1, hres.2⟩

theorem wf_link_no_children {c : Comp} {t : List String} (h : wf c = true)
    (hk : c.kind = .link t) : c.children = [] := by
  cases c with
  | mk nm k os ps sg cs =>
    rw [wf_mk] at h
    rw [Comp.kind] at hk
    subst hk
    simp only [Bool.and_eq_true] at h
    exact List.isEmpty_iff.mp h.1.2

theorem wf_getAtPath {root c : Comp} {pos : List String}
    (h : wf root = true) (hget : getAtPath root pos = some c) : wf c = true := by
  induction pos generalizing root with
  | nil =>
    rw [getAtPath] at hget
    cases hget
    exact h
  | cons s rest ih =>
    rw [getAtPath] at hget
    cases hfind : childNamed root s with
    | none => rw [hfind] at hget; cases hget
    | some ch =>
      rw [hfind] at hget
      exact ih (wf_child h hfind).1 hget

theorem getAtPath_append (p q : List String) :
    ∀ c : Comp, getAtPath c (p ++ q) = (getAtPath c p).bind (fun d => getAtPath d q) := by
  induction p with
  | nil => intro c; rfl
  | cons s rest ih =>
    intro c
    rw [List.cons_append, getAtPath, getAtPath]
    cases hfind : childNamed c s with
    | none => rfl
    | some ch => exact ih ch

theorem getAtPath_snoc (root : Comp) (p : List String) (s : String) :
    getAtPath root (p ++ [s]) = (getAtPath root p).bind (fun d => childNamed d s) := by
  rw [getAtPath_append]
  cases getAtPath root p with
  | none => rfl
  | some d =>
    show getAtPath d [s] = childNamed d s
    rw [getAtPath]
    cases childNamed d s with
    | none => rfl
    | some ch => rfl

theorem getAtPath_nil (c : Comp) : getAtPath c [] = some c := rfl

theorem getAtPath_cons (c : Comp) (n : String) (rest : List String) :
    getAtPath c (n :: rest) =
      (match childNamed c n with
       | some ch => getAtPath ch rest
       | none => none) := rfl

theorem resolveSegs_nil (root : Comp) (pos : List String) (hops : Nat) :
    resolveSegs root pos [] hops = .ok pos := by
  rw [resolveSegs.eq_def]

theorem resolveSegs_cons (root : Comp) (pos : List String) (s : String)
    (rest : List String) (hops : Nat)
    (h1 : (s == ".") = false) (h2 : (s == "..") = false) :
    resolveSegs root pos (s :: rest) hops =
      (match derefPos root (pos ++ [s]) hops with
       | .ok pos2 => resolveSegs root pos2 rest hops
       | .error e => .error e) := by
  rw [resolveSegs.eq_def]
  simp only [h1, h2, Bool.false_eq_true, if_false]

theorem derefPos_eq (root : Comp) (pos : List String) (hops : Nat) :
    derefPos root pos hops =
      (match getAtPath root pos with
       | none => .error .ComponentNotFound
       | some c =>
         match c.kind with
         | .normal => .ok pos
         | .link target =>
           match hops with
           | 0 => .error .CyclicLink
           | h + 1 => linkFollow (resolveSegs root [] target h)) := by
  rw [derefPos.eq_def]

theorem derefPos_normal {root c : Comp} {pos : List String} (hops : Nat)
    (hget : getAtPath root pos = some c) (hk : c.kind = .normal) :
    derefPos root pos hops = .ok pos := by
  cases c with
  | mk nm k os ps sg cs =>
    rw [Comp.kind] at hk
    subst hk
    rw [derefPos_eq, hget]
    rfl

/-- Walking a segment list that the tree actually contains lands exactly at
its end position and leaves only the final Link dereference to perform. -/
theorem resolveSegs_walk (root : Comp) (hwf : wf root = true) (hops : Nat) :
    ∀ (rest base : List String) (cur c : Comp),
      getAtPath root base = some cur → cur.kind = .normal →
      getAtPath cur rest = some c →
      resolveSegs root base rest hops = derefPos root (base ++ rest) hops := by
  intro rest
  induction rest with
  | nil =>
    intro base cur c hbase hcur hrest
    rw [getAtPath_nil] at hrest
    cases hrest
    rw [resolveSegs_nil, List.append_nil, derefPos_normal hops hbase hcur]
  | cons s rest' ih =>
    intro base cur c hbase hcur hrest
    rw [getAtPath_cons] at hrest
    cases hfind : childNamed cur s with
    | none => rw [hfind] at hrest; cases hrest
    | some ch =>
      rw [hfind] at hrest
      have hcurwf : wf cur = true := wf_getAtPath hwf hbase
      obtain ⟨hchwf, hname, hdot, hdotdot⟩ := wf_child hcurwf hfind
      have hsdot : (s == ".") = false := by
        rw [beq_eq_false_iff_ne]
        intro hs; exact hdot (hname.trans hs)
      have hsdotdot : (s == "..") = false := by
        rw [beq_eq_false_iff_ne]
        intro hs; exact hdotdot (hname.trans hs)
      have hsnoc : getAtPath root (base ++ [s]) = some ch := by
        rw [getAtPath_snoc, hbase]
        exact hfind
      rw [resolveSegs_cons root base s rest' hops hsdot hsdotdot]
      cases rest' with
      | nil =>
        have hrest2 : getAtPath ch [] = some c := hrest
        rw [getAtPath_nil] at hrest2
        cases hrest2
        cases hder : derefPos root (base ++ [s]) hops with
        | ok pos2 =>
          show resolveSegs root pos2 [] hops = Except.ok pos2
          exact resolveSegs_nil root pos2 hops
        | error e => rfl
      | cons r rs =>
        have hrest2 : getAtPath ch (r :: rs) = some c := hrest
        have hchnormal : ch.kind = .normal := by
          cases hk : ch.kind with
          | normal => rfl
          | link t =>
            have hempty := wf_link_no_children hchwf hk
            rw [getAtPath_cons, childNamed, hempty] at hrest2
            simp [List.find?] at hrest2
        rw [derefPos_normal hops hsnoc hchnormal]
        show resolveSegs root (base ++ [s]) (r :: rs) hops =
          derefPos root (base ++ s :: r :: rs) hops
        rw [ih (base ++ [s]) ch c hsnoc hchnormal hrest2, List.append_assoc]
        rfl

theorem derefPos_link {root L : Comp} {pos target : List String}
    (hget : getAtPath root pos = some L) (hL : L.kind = .link target)
    (hops : Nat) :
    derefPos root pos (hops + 1) = linkFollow (resolveAbs root target hops) := by
  cases L with
  | mk nm k os ps sg cs =>
    rw [Comp.kind] at hL
    subst hL
    rw [derefPos_eq, hget]
    rfl

theorem derefPos_link_zero {root L : Comp} {pos target : List String}
    (hget : getAtPath root pos = some L) (hL : L.kind = .link target) :
    derefPos root pos 0 = .error .CyclicLink := by
  cases L with
  | mk nm k os ps sg cs =>
    rw [Comp.kind] at hL
    subst hL
    rw [derefPos_eq, hget]
    rfl

/-- C2: for every live component that is not a Link and is attached under
the global root of a well-formed tree (the root itself not being a Link),
resolving the component's `full_path()` — its position's segment list —
lands exactly back at that position, whose occupant is the component
itself: resolution is a left inverse of construction plus attachment. -/
theorem c2_resolve_full_path_left_inverse (root c : Comp) (pos : List String)
    (hops : Nat) (hwf : wf root = true) (hroot : root.kind = .normal)
    (hget : getAtPath root pos = some c) (hc : c.kind = .normal) :
    resolveAbs root pos hops = .ok pos := by
  rw [resolveAbs]
  rw [resolveSegs_walk root hwf hops pos [] root c (getAtPath_nil root) hroot hget]
  exact derefPos_normal hops hget hc

/-- Example tree: a root owning a component `c1` (with grandchild `g1`)
and a Link `alias` targeting `c1`, as in spec §8 Scenario B. -/
def exTreeA : Comp :=
  .mk "Root" .normal [] [] []
    [ .mk "c1" .normal [] [] []
        [ .mk "g1" .normal [] [] [] [] ],
      .mk "alias" (.link ["c1"]) [] [] [] [] ]

/-- Witness for C2 at a depth-two component of `exTreeA`. -/
theorem c2_witness :
    resolveAbs exTreeA ["c1", "g1"] 4 = .ok ["c1", "g1"] :=
  c2_resolve_full_path_left_inverse exTreeA (.mk "g1" .normal [] [] [] [])
    ["c1", "g1"] 4 (by decide) rfl rfl rfl

/-- C5: resolving the path of a Link transparently continues from the
Link's stored target path: with hop budget left, the result is exactly the
target path's resolution (the same component when the target is live), a
target that no longer resolves yields `DanglingLink`, and a chain of Links
exhausting the bounded hop count yields `CyclicLink` — both via
`linkFollow`; with the hop budget exhausted the resolution fails
`CyclicLink` outright. -/
theorem c5_link_transparent_dangling_cyclic (root L : Comp) (p : List String)
    (s : String) (target : List String) (hops : Nat)
    (hwf : wf root = true) (hroot : root.kind = .normal)
    (hget : getAtPath root (p ++ [s]) = some L) (hL : L.kind = .link target) :
    resolveAbs root (p ++ [s]) (hops + 1) = linkFollow (resolveAbs root target hops)
    ∧ resolveAbs root (p ++ [s]) 0 = .error .CyclicLink := by
  constructor
  · rw [resolveAbs]
    rw [resolveSegs_walk root hwf (hops + 1) (p ++ [s]) [] root L
      (getAtPath_nil root) hroot hget]
    exact derefPos_link hget hL hops
  · rw [resolveAbs]
    rw [resolveSegs_walk root hwf 0 (p ++ [s]) [] root L
      (getAtPath_nil root) hroot hget]
    exact derefPos_link_zero hget hL

/-- Witness for C5: in `exTreeA`, `alias` targets the live `c1`, so with a
hop budget the alias resolves exactly as its target does, and with the
budget exhausted resolution fails `CyclicLink`. -/
theorem c5_witness :
    resolveAbs exTreeA ["alias"] 4 = linkFollow (resolveAbs exTreeA ["c1"] 3)
    ∧ resolveAbs exTreeA ["alias"] 0 = .error .CyclicLink :=
  c5_link_transparent_dangling_cyclic exTreeA
    (.mk "alias" (.link ["c1"]) [] [] [] []) [] "alias" ["c1"] 3
    (by decide) rfl rfl rfl

/-- Modelled from the spec: configure the first Option of the store that
carries the given name; `ValueNotFound` when the store exposes none. On
success the rebuilt store and the fired trigger ids are returned. -/
def optsConfigure (os : List COption) (n : String) (v : Value) :
    Except CErr (List COption × List Nat) :=
  match os with
  | [] => .error .ValueNotFound
  | o :: rest =>
    if o.name == n then (configureOpt o v).map (fun p => (p.1 :: rest, p.2))
    else (optsConfigure rest n v).map (fun p => (o :: p.1, p.2))

/-- The Option of the component carrying the given name. -/
def optLookup (c : Comp) (n : String) : Option COption :=
  c.opts.find? (fun o => o.name == n)

/-- The current value a read of the named option returns. -/
def optValue (c : Comp) (n : String) : Option Value :=
  (optLookup c n).map (fun o => o.current)

/-- The bound external storage of the named option. -/
def optBound (c : Comp) (n : String) : Option (Option Value) :=
  (optLookup c n).map (fun o => o.bound)

/-- Modelled from the spec: §4.3 `configure(name, value)` on a component,
in total form — on success the new store is committed and the trigger ids
fired in registration order are reported; on failure the component is
retained unchanged, no trigger fires, and the error is reported. -/
def configureApply (c : Comp) (n : String) (v : Value) :
    Comp × List Nat × Option CErr :=
  match c with
  | .mk nm k os ps sg cs =>
    match optsConfigure os n v with
    | .ok (os', fired) => (.mk nm k os' ps sg cs, fired, none)
    | .error e => (c, [], some e)

theorem configureOpt_ok_spec {o : COption} {v : Value} {o' : COption}
    {trig : List Nat} (h : configureOpt o v = .ok (o', trig)) :
    o'.name = o.name ∧ o'.current = v
    ∧ o'.bound = o.bound.map (fun _ => v) ∧ trig = o.triggers := by
  rw [configureOpt] at h
  split_ifs at h with h1 h2 h3
  simp only [Except.ok.injEq, Prod.mk.injEq] at h
  obtain ⟨rfl, rfl⟩ := h
  exact ⟨rfl, rfl, rfl, rfl⟩

theorem configureOpt_err_spec {o : COption} {v : Value} {e : CErr}
    (h : configureOpt o v = .error e) :
    e = .InvalidType ∨ e = .OutOfRange ∨ e = .Locked := by
  rw [configureOpt] at h
  split_ifs at h <;> simp only [Except.error.injEq] at h <;> subst h <;>
    first
    | exact Or.inl rfl
    | exact Or.inr (Or.inl rfl)
    | exact Or.inr (Or.inr rfl)

theorem optsConfigure_ok {os : List COption} {n : String} {v : Value}
    {o o' : COption} {trig : List Nat}
    (hfind : os.find? (fun x => x.name == n) = some o)
    (hcfg : configureOpt o v = .ok (o', trig)) :
    ∃ os', optsConfigure os n v = .ok (os', trig)
      ∧ os'.find? (fun x => x.name == n) = some o' := by
  induction os with
  | nil => cases hfind
  | cons o0 rest ih =>
    rw [List.find?] at hfind
    cases hname : (o0.name == n) with
    | true =>
      rw [hname] at hfind
      simp only [Option.some.injEq] at hfind
      subst hfind
      refine ⟨o' :: rest, ?_, ?_⟩
      · rw [optsConfigure, if_pos hname, hcfg]
        rfl
      · have : (o'.name == n) = true := by
          rw [(configureOpt_ok_spec hcfg).1]
          exact hname
        rw [List.find?, this]
    | false =>
      rw [hname] at hfind
      obtain ⟨os', hos', hfind'⟩ := ih hfind
      refine ⟨o0 :: os', ?_, ?_⟩
      · rw [optsConfigure, if_neg (by rw [hname]; exact Bool.false_ne_true), hos']
        rfl
      · rw [List.find?, hname]
        exact hfind'

theorem optsConfigure_err {os : List COption} {n : String} {v : Value}
    {o : COption} {e : CErr}
    (hfind : os.find? (fun x => x.name == n) = some o)
    (hcfg : configureOpt o v = .error e) :
    optsConfigure os n v = .error e := by
  induction os with
  | nil => cases hfind
  | cons o0 rest ih =>
    rw [List.find?] at hfind
    cases hname : (o0.name == n) with
    | true =>
      rw [hname] at hfind
      simp only [Option.some.injEq] at hfind
      subst hfind
      rw [optsConfigure, if_pos hname, hcfg]
      rfl
    | false =>
      rw [hname] at hfind
      rw [optsConfigure, if_neg (by rw [hname]; exact Bool.false_ne_true),
        ih hfind]
      rfl

/-- C1 exactly as frozen, at one component, option name and value: the
call either succeeds or fails with `InvalidType` or `OutOfRange`. -/
def c1ClaimAt (c : Comp) (n : String) (v : Value) : Prop :=
  (configureApply c n v).2.2 = none
  ∨ (configureApply c n v).2.2 = some .InvalidType
  ∨ (configureApply c n v).2.2 = some .OutOfRange

/-- An Option that is locked and was already set (spec §4.3). -/
def lockedOpt : COption :=
  { name := "maxiter", declType := .tUInt, defVal := .vUInt 1,
    current := .vUInt 1, bound := none, triggers := [0], restr := .free,
    locked := true, wasSet := true }

/-- A component exposing only the locked option. -/
def lockedComp : Comp := .mk "solver" .normal [lockedOpt] [] [] []

/-- C1 counterexample: configuring a locked, already-set option fails with
`Locked`, a third outcome the claim's two-error disjunction does not
allow, so the claim as frozen is false at this input. -/
theorem c1_counterexample : ¬ c1ClaimAt lockedComp "maxiter" (.vUInt 2) := by
  intro h
  have hres : (configureApply lockedComp "maxiter" (.vUInt 2)).2.2
      = some .Locked := rfl
  rcases h with h | h | h <;> rw [hres] at h <;> cases h

/-- C1 amended (the counterexample forces `Locked` as a third rejection):
for every component, exposed option name and value, `configure` either
succeeds — committing the value so a subsequent read returns exactly it,
writing it through to the bound external storage if one is linked, and
firing the registered triggers in registration order — or fails with
`InvalidType`, `OutOfRange` or `Locked`, in which case the component
(hence the prior current value and any bound storage) is retained
unchanged and no trigger fires. -/
theorem c1_configure_commit_or_reject (c : Comp) (n : String) (v : Value)
    (o : COption) (hopt : optLookup c n = some o) :
    (∀ c' fired, configureApply c n v = (c', fired, none) →
       optValue c' n = some v
       ∧ fired = o.triggers
       ∧ optBound c' n = some (o.bound.map (fun _ => v)))
    ∧ (∀ c' fired e, configureApply c n v = (c', fired, some e) →
       (e = .InvalidType ∨ e = .OutOfRange ∨ e = .Locked)
       ∧ c' = c ∧ fired = []) := by
  cases c with
  | mk nm k os ps sg cs =>
    rw [optLookup, Comp.opts] at hopt
    constructor
    · intro c' fired happ
      rw [configureApply] at happ
      cases hoc : optsConfigure os n v with
      | error e => rw [hoc] at happ; cases happ
      | ok p =>
        cases hcfg : configureOpt o v with
        | error e =>
          rw [optsConfigure_err hopt hcfg] at hoc
          cases hoc
        | ok q =>
          obtain ⟨o', trig⟩ := q
          obtain ⟨os', hos', hfind'⟩ := optsConfigure_ok hopt hcfg
          rw [hos'] at hoc
          cases hoc
          rw [hos'] at happ
          simp only [Prod.mk.injEq] at happ
          obtain ⟨rfl, rfl, -⟩ := happ
          obtain ⟨hnm, hcur, hbnd, htrig⟩ := configureOpt_ok_spec hcfg
          refine ⟨?_, htrig, ?_⟩
          · rw [optValue, optLookup, Comp.opts, hfind']
            show some o'.current = some v
            rw [hcur]
          · rw [optBound, optLookup, Comp.opts, hfind']
            show some o'.bound = some (o.bound.map (fun _ => v))
            rw [hbnd]
    · intro c' fired e happ
      rw [configureApply] at happ
      cases hoc : optsConfigure os n v with
      | ok p =>
        rw [hoc] at happ
        obtain ⟨os', trig⟩ := p
        cases happ
      | error e0 =>
        rw [hoc] at happ
        simp only [Prod.mk.injEq, Option.some.injEq] at happ
        obtain ⟨rfl, rfl, rfl⟩ := happ
        refine ⟨?_, rfl, rfl⟩
        cases hcfg : configureOpt o v with
        | ok q =>
          obtain ⟨o', trig⟩ := q
          obtain ⟨os', hos', -⟩ := optsConfigure_ok hopt hcfg
          rw [hos'] at hoc
          cases hoc
        | error e1 =>
          rw [optsConfigure_err hopt hcfg] at hoc
          cases hoc
          exact configureOpt_err_spec hcfg

/-- A live option as `CMesh`'s `dimension` is built: unlocked, `Uint`-typed
and linked to bound storage, with two registered triggers. -/
def exOpt : COption :=
  { name := "dimension", declType := .tUInt, defVal := .vUInt 0,
    current := .vUInt 0, bound := some (.vUInt 0), triggers := [0, 1],
    restr := .free, locked := false, wasSet := false }

/-- A component exposing `exOpt`. -/
def exOptComp : Comp := .mk "mesh" .normal [exOpt] [] [] []

/-- Witness for the amended C1 on a successful configure of `exOpt`. -/
theorem c1_witness :
    optValue (configureApply exOptComp "dimension" (.vUInt 3)).1 "dimension"
      = some (.vUInt 3)
    ∧ (configureApply exOptComp "dimension" (.vUInt 3)).2.1 = [0, 1]
    ∧ optBound (configureApply exOptComp "dimension" (.vUInt 3)).1 "dimension"
      = some (some (.vUInt 3)) :=
  (c1_configure_commit_or_reject exOptComp "dimension" (.vUInt 3) exOpt rfl).1
    (configureApply exOptComp "dimension" (.vUInt 3)).1
    (configureApply exOptComp "dimension" (.vUInt 3)).2.1 rfl

/-- Modelled from the spec: §3 Registry entry — a (library name, type name)
pair mapped to a factory callable, modelled by the blueprint component the
callable returns (`create` hands out a copy under the requested name). -/
structure RegEntry where
  library : String
  typeName : String
  blueprint : Comp

/-- Modelled from the spec: the process-wide registry, in registration
order. -/
abbrev Registry := List RegEntry

/-- The entry registered under the exact (library, type name) pair. -/
def regLookupPair (reg : Registry) (lib ty : String) : Option RegEntry :=
  reg.find? (fun e => e.library == lib && e.typeName == ty)

/-- The first entry whose type name matches (what `create` consults). -/
def regLookupType (reg : Registry) (ty : String) : Option RegEntry :=
  reg.find? (fun e => e.typeName == ty)

/-- Modelled from the spec: §4.4 `register_type(library, type_name,
constructor)` — registering an already-registered pair fails
`DuplicateRegistration`; otherwise the entry is appended. -/
def register_type (reg : Registry) (lib ty : String) (bp : Comp) :
    Except CErr Registry :=
  if (regLookupPair reg lib ty).isSome then .error .DuplicateRegistration
  else .ok (reg ++ [{ library := lib, typeName := ty, blueprint := bp }])

/-- Modelled from the spec: §4.4 `create(type_name, name)` — look up a
matching constructor and return the freshly constructed, tree-detached
component under the requested name; unmatched type names fail
`UnknownType`. -/
def create (reg : Registry) (ty nm : String) : Except CErr Comp :=
  match regLookupType reg ty with
  | none => .error .UnknownType
  | some e => .ok (e.blueprint.withName nm)

/-- The runtime state a claim observes: the process registry and the single
shared component tree. -/
structure World where
  reg : Registry
  root : Comp

/-- Modelled from the spec: `create` as a state transition — construction
returns a detached component and never touches the shared tree; only an
explicit later attachment makes the result reachable. -/
def createOp (w : World) (ty nm : String) : World × Except CErr Comp :=
  (w, create w.reg ty nm)

theorem Comp.name_withName (c : Comp) (n : String) : (c.withName n).name = n := by
  cases c
  rfl

/-- C3: `create` on a registered type name returns the fresh component the
registered constructor builds, carrying the requested name and no tree
attachment — the shared tree is untouched, so every path resolves exactly
as before and the fresh component only becomes reachable by a later
explicit attachment; an unregistered type name fails `UnknownType`, also
leaving the tree unchanged. -/
theorem c3_create_detached_or_unknown (w : World) (ty nm : String) :
    (createOp w ty nm).1 = w
    ∧ (∀ pos hops, resolveAbs (createOp w ty nm).1.root pos hops
        = resolveAbs w.root pos hops)
    ∧ (regLookupType w.reg ty = none →
        (createOp w ty nm).2 = .error .UnknownType)
    ∧ (∀ e, regLookupType w.reg ty = some e →
        (createOp w ty nm).2 = .ok (e.blueprint.withName nm)
        ∧ (e.blueprint.withName nm).name = nm) := by
  refine ⟨rfl, fun pos hops => rfl, ?_, ?_⟩
  · intro hnone
    show create w.reg ty nm = .error .UnknownType
    rw [create, hnone]
  · intro e hsome
    refine ⟨?_, Comp.name_withName e.blueprint nm⟩
    show create w.reg ty nm = .ok (e.blueprint.withName nm)
    rw [create, hsome]

/-- A blueprint as a registered constructor produces it: a detached
component with a bound signal, as `ComponentBuilder < N, CellTerm,
LibSchemes >` provides for the `N` scheme. -/
def exBlueprint : Comp :=
  .mk "tmpl" .normal [] [] [{ name := "execute", descr := "run the term", handler := 7 }] []

/-- The registry entry the builder of `exBlueprint` adds at process start. -/
def exEntry : RegEntry :=
  { library := "LibSchemes", typeName := "N", blueprint := exBlueprint }

/-- A one-entry registry. -/
def exReg : Registry := [exEntry]

/-- A world holding `exReg` and the example tree. -/
def exWorld : World := { reg := exReg, root := exTreeA }

/-- Witness for C3: creating a registered type detaches a renamed blueprint
copy; an unknown type name is rejected. -/
theorem c3_witness :
    create exReg "N" "n1" = .ok (exBlueprint.withName "n1")
    ∧ create exReg "Nosuch" "x" = .error .UnknownType :=
  ⟨((c3_create_detached_or_unknown exWorld "N" "n1").2.2.2 exEntry rfl).1,
   (c3_create_detached_or_unknown exWorld "Nosuch" "x").2.2.1 rfl⟩

/-- Modelled from the spec: the registry activity of a process is a
sequence of `register_type` calls (there is no unregister operation); a
rejected registration leaves the registry as it was. -/
inductive RegOp where
  | register (lib ty : String) (bp : Comp) : RegOp

/-- One `register_type` call, total form. -/
def applyRegOp (reg : Registry) : RegOp → Registry
  | .register lib ty bp =>
    match register_type reg lib ty bp with
    | .ok reg2 => reg2
    | .error _ => reg

/-- A finite sequence of `register_type` calls. -/
def applyRegOps (reg : Registry) : List RegOp → Registry
  | [] => reg
  | op :: ops => applyRegOps (applyRegOp reg op) ops

theorem find?_append_some {α : Type} {l1 l2 : List α} {p : α → Bool} {a : α}
    (h : l1.find? p = some a) : (l1 ++ l2).find? p = some a := by
  induction l1 with
  | nil => cases h
  | cons x xs ih =>
    rw [List.cons_append, List.find?]
    rw [List.find?] at h
    cases hp : p x with
    | true => rw [hp] at h; exact h
    | false =>
      rw [hp] at h
      exact ih h

theorem regLookupPair_applyRegOp {reg : Registry} {lib ty : String}
    {e : RegEntry} (h : regLookupPair reg lib ty = some e) (op : RegOp) :
    regLookupPair (applyRegOp reg op) lib ty = some e := by
  cases op with
  | register lib2 ty2 bp =>
    cases hdup : regLookupPair reg lib2 ty2 with
    | some e2 =>
      simp only [applyRegOp, register_type, hdup, Option.isSome_some, if_true]
      exact h
    | none =>
      simp only [applyRegOp, register_type, hdup, Option.isSome_none,
        Bool.false_eq_true, if_false]
      rw [regLookupPair] at h ⊢
      exact find?_append_some h

/-- C4: a (library, type name) pair not yet present registers successfully;
a second registration of the same pair fails `DuplicateRegistration` and
leaves the first entry in effect; and an entry, once present, persists
unchanged under every further sequence of registry operations — the only
operations the process has, there being no unregister. -/
theorem c4_register_once_persist (reg : Registry) (lib ty : String) :
    (regLookupPair reg lib ty = none → ∀ bp,
       register_type reg lib ty bp
         = .ok (reg ++ [{ library := lib, typeName := ty, blueprint := bp }]))
    ∧ (∀ e, regLookupPair reg lib ty = some e → ∀ bp,
       register_type reg lib ty bp = .error .DuplicateRegistration
       ∧ applyRegOp reg (.register lib ty bp) = reg)
    ∧ (∀ e, regLookupPair reg lib ty = some e → ∀ ops,
       regLookupPair (applyRegOps reg ops) lib ty = some e) := by
  refine ⟨?_, ?_, ?_⟩
  · intro hnone bp
    rw [register_type, hnone]
    rfl
  · intro e hsome bp
    have hdup : (regLookupPair reg lib ty).isSome = true := by
      rw [hsome]; rfl
    constructor
    · rw [register_type, if_pos hdup]
    · rw [applyRegOp, register_type, if_pos hdup]
  · intro e hsome ops
    induction ops generalizing reg with
    | nil => exact hsome
    | cons op ops ih =>
      rw [applyRegOps]
      exact ih _ (regLookupPair_applyRegOp hsome op)

/-- Witness for C4: the first registration of the `N` builder succeeds, the
second fails `DuplicateRegistration` keeping the first entry, and the entry
survives a later registration of a different type. -/
theorem c4_witness :
    register_type [] "LibSchemes" "N" exBlueprint = .ok exReg
    ∧ register_type exReg "LibSchemes" "N" exBlueprint
        = .error .DuplicateRegistration
    ∧ regLookupPair
        (applyRegOps exReg
          [.register "LibSchemes" "N" exBlueprint,
           .register "LibScalar" "SUPG" exBlueprint])
        "LibSchemes" "N" = some exEntry :=
  ⟨(c4_register_once_persist [] "LibSchemes" "N").1 rfl exBlueprint,
   ((c4_register_once_persist exReg "LibSchemes" "N").2.1 exEntry rfl
      exBlueprint).1,
   (c4_register_once_persist exReg "LibSchemes" "N").2.2 exEntry rfl
     [.register "LibSchemes" "N" exBlueprint,
      .register "LibScalar" "SUPG" exBlueprint]⟩

mutual

/-- Modelled from the spec: rebuild the tree with the component at `pos`
transformed by `f`; a missing path segment fails `ComponentNotFound` and an
error of `f` aborts the rebuild, leaving the caller's tree as it was. -/
def updateAt (c : Comp) (pos : List String) (f : Comp → Except CErr Comp) :
    Except CErr Comp :=
  match pos with
  | [] => f c
  | n :: rest =>
    match updateAtChildren c.children n rest f with
    | .ok cs' => .ok (c.withChildren cs')
    | .error e => .error e
termination_by (pos.length, 0)

/-- Transform, inside a children list, the first child named `n`, at the
remaining position `rest` below it. -/
def updateAtChildren (cs : List Comp) (n : String) (rest : List String)
    (f : Comp → Except CErr Comp) : Except CErr (List Comp) :=
  match cs with
  | [] => .error .ComponentNotFound
  | c :: cs' =>
    if c.name == n then
      match updateAt c rest f with
      | .ok c2 => .ok (c2 :: cs')
      | .error e => .error e
    else
      match updateAtChildren cs' n rest f with
      | .ok cs2 => .ok (c :: cs2)
      | .error e => .error e
termination_by (rest.length, cs.length + 1)

end

/-- Modelled from the spec: §4.1 `create_child(type_name, name)` — ask the
Factory for a fresh node and attach it at the end of the children list;
fails `DuplicateName` if the sibling name exists. -/
def addChildF (reg : Registry) (ty nm : String) (c : Comp) :
    Except CErr Comp :=
  if (childNamed c nm).isSome then .error .DuplicateName
  else
    match create reg ty nm with
    | .ok fresh => .ok (c.withChildren (c.children ++ [fresh]))
    | .error e => .error e

/-- Modelled from the spec: §4.1 `remove_child(name)` — detach the named
child, destroying its whole subtree with it. -/
def removeChildF (nm : String) (c : Comp) : Except CErr Comp :=
  if (childNamed c nm).isSome then
    .ok (c.withChildren (c.children.eraseP (fun ch => ch.name == nm)))
  else .error .ComponentNotFound

/-- Modelled from the spec: the tree mutations of §4.1, addressed by the
parent's position. -/
inductive TreeOp where
  | create (pos : List String) (ty nm : String) : TreeOp
  | remove (pos : List String) (nm : String) : TreeOp

/-- One tree operation in total form: a rejected operation leaves the
shared tree unchanged. -/
def applyOp (reg : Registry) (t : Comp) : TreeOp → Comp
  | .create pos ty nm =>
    match updateAt t pos (addChildF reg ty nm) with
    | .ok t2 => t2
    | .error _ => t
  | .remove pos nm =>
    match updateAt t pos (removeChildF nm) with
    | .ok t2 => t2
    | .error _ => t

/-- A finite sequence of `create_child`/`remove_child` operations. -/
def applyOps (reg : Registry) (t : Comp) : List TreeOp → Comp
  | [] => t
  | op :: ops => applyOps reg (applyOp reg t op) ops

/-- Every registered blueprint itself satisfies the sibling-name
invariant. -/
def wfReg (reg : Registry) : Bool :=
  reg.all (fun e => siblingsUnique e.blueprint)

theorem siblingsUnique_mk (n : String) (k : CompKind) (os : List COption)
    (ps : List (String × Value)) (sg : List CSignal) (cs : List Comp) :
    siblingsUnique (Comp.mk n k os ps sg cs)
      = (namesNodup cs && siblingsUniqueList cs) := by
  rw [siblingsUnique.eq_def]

theorem siblingsUnique_withName (c : Comp) (n : String) :
    siblingsUnique (c.withName n) = siblingsUnique c := by
  cases c
  rw [Comp.withName, siblingsUnique_mk, siblingsUnique_mk]

theorem siblingsUniqueList_mem {cs : List Comp} {c : Comp}
    (h : siblingsUniqueList cs = true) (hc : c ∈ cs) :
    siblingsUnique c = true := by
  induction cs with
  | nil => cases hc
  | cons d ds ih =>
    rw [siblingsUniqueList] at h
    simp only [Bool.and_eq_true] at h
    rcases List.mem_cons.mp hc with rfl | hmem
    · exact h.1
    · exact ih h.2 hmem

theorem nameFresh_of_names_eq {nm : String} :
    ∀ {cs cs' : List Comp}, cs'.map Comp.name = cs.map Comp.name →
      nameFresh nm cs' = nameFresh nm cs := by
  intro cs
  induction cs with
  | nil =>
    intro cs' h
    cases cs' with
    | nil => rfl
    | cons x xs => cases h
  | cons c rest ih =>
    intro cs' h
    cases cs' with
    | nil => cases h
    | cons x xs =>
      simp only [List.map_cons, List.cons.injEq] at h
      rw [nameFresh, nameFresh, h.1, ih h.2]

theorem namesNodup_of_names_eq :
    ∀ {cs cs' : List Comp}, cs'.map Comp.name = cs.map Comp.name →
      namesNodup cs' = namesNodup cs := by
  intro cs
  induction cs with
  | nil =>
    intro cs' h
    cases cs' with
    | nil => rfl
    | cons x xs => cases h
  | cons c rest ih =>
    intro cs' h
    cases cs' with
    | nil => cases h
    | cons x xs =>
      simp only [List.map_cons, List.cons.injEq] at h
      rw [namesNodup, namesNodup, ih h.2, h.1,
        nameFresh_of_names_eq h.2]

theorem nameFresh_append (nm : String) (xs : List Comp) (w : Comp) :
    nameFresh nm (xs ++ [w]) = (nameFresh nm xs && (w.name != nm)) := by
  induction xs with
  | nil =>
    rw [List.nil_append, nameFresh, nameFresh, nameFresh, Bool.and_true,
      Bool.true_and]
  | cons x xs ih =>
    rw [List.cons_append, nameFresh, nameFresh, ih, Bool.and_assoc]

theorem nameFresh_spec {nm : String} {cs : List Comp} :
    nameFresh nm cs = true ↔ ∀ c ∈ cs, c.name ≠ nm := by
  induction cs with
  | nil => simp [nameFresh]
  | cons c rest ih =>
    rw [nameFresh]
    simp only [Bool.and_eq_true, bne_iff_ne, ih]
    constructor
    · rintro ⟨h1, h2⟩ x hx
      rcases List.mem_cons.mp hx with rfl | hmem
      · exact h1
      · exact h2 x hmem
    · intro h
      exact ⟨h c (List.mem_cons_self c rest),
        fun x hx => h x (List.mem_cons_of_mem c hx)⟩

theorem namesNodup_append_singleton {cs : List Comp} {w : Comp}
    (h : namesNodup cs = true) (hw : nameFresh w.name cs = true) :
    namesNodup (cs ++ [w]) = true := by
  induction cs with
  | nil => rw [List.nil_append, namesNodup, nameFresh, namesNodup]; rfl
  | cons c rest ih =>
    rw [namesNodup] at h
    rw [nameFresh] at hw
    simp only [Bool.and_eq_true] at h hw
    rw [List.cons_append, namesNodup, nameFresh_append]
    have hcw : (w.name != c.name) = true := by
      rw [bne_iff_ne]
      exact fun hh => (bne_iff_ne.mp hw.1) hh.symm
    rw [h.1, hcw, ih h.2 hw.2]
    rfl

theorem siblingsUniqueList_append_singleton {cs : List Comp} {w : Comp}
    (h : siblingsUniqueList cs = true) (hw : siblingsUnique w = true) :
    siblingsUniqueList (cs ++ [w]) = true := by
  induction cs with
  | nil =>
    rw [List.nil_append, siblingsUniqueList, hw, siblingsUniqueList]
    rfl
  | cons c rest ih =>
    rw [siblingsUniqueList] at h
    simp only [Bool.and_eq_true] at h
    rw [List.cons_append, siblingsUniqueList, h.1, ih h.2]
    rfl

theorem nameFresh_sublist {nm : String} {cs' cs : List Comp}
    (hsub : List.Sublist cs' cs) (h : nameFresh nm cs = true) :
    nameFresh nm cs' = true := by
  rw [nameFresh_spec] at h ⊢
  exact fun c hc => h c (hsub.mem hc)

theorem namesNodup_sublist {cs' cs : List Comp} (hsub : List.Sublist cs' cs)
    (h : namesNodup cs = true) : namesNodup cs' = true := by
  induction hsub with
  | slnil => rfl
  | cons x hs ih =>
    rw [namesNodup] at h
    simp only [Bool.and_eq_true] at h
    exact ih h.2
  | cons₂ x hs ih =>
    rw [namesNodup] at h ⊢
    simp only [Bool.and_eq_true] at h
    rw [ih h.2, nameFresh_sublist hs h.1]
    rfl

theorem siblingsUniqueList_sublist {cs' cs : List Comp} (hsub : List.Sublist cs' cs)
    (h : siblingsUniqueList cs = true) : siblingsUniqueList cs' = true := by
  induction hsub with
  | slnil => rfl
  | cons x hs ih =>
    rw [siblingsUniqueList] at h
    simp only [Bool.and_eq_true] at h
    exact ih h.2
  | cons₂ x hs ih =>
    rw [siblingsUniqueList] at h ⊢
    simp only [Bool.and_eq_true] at h
    rw [ih h.2, h.1]
    rfl

theorem Comp.name_withChildren (c : Comp) (cs : List Comp) :
    (c.withChildren cs).name = c.name := by
  cases c
  rfl

theorem Comp.children_withChildren (c : Comp) (cs : List Comp) :
    (c.withChildren cs).children = cs := by
  cases c
  rfl

theorem siblingsUnique_withChildren (c : Comp) (cs : List Comp) :
    siblingsUnique (c.withChildren cs)
      = (namesNodup cs && siblingsUniqueList cs) := by
  cases c
  rw [Comp.withChildren, siblingsUnique_mk]

theorem siblingsUnique_eq (c : Comp) :
    siblingsUnique c
      = (namesNodup c.children && siblingsUniqueList c.children) := by
  cases c
  rw [siblingsUnique_mk]
  rfl

theorem updateAt_nil (c : Comp) (f : Comp → Except CErr Comp) :
    updateAt c [] f = f c := by
  rw [updateAt.eq_def]

theorem updateAt_cons (c : Comp) (n : String) (rest : List String)
    (f : Comp → Except CErr Comp) :
    updateAt c (n :: rest) f
      = (match updateAtChildren c.children n rest f with
         | .ok cs' => .ok (c.withChildren cs')
         | .error e => .error e) := by
  rw [updateAt.eq_def]

theorem updateAtChildren_cons (c : Comp) (cs : List Comp) (n : String)
    (rest : List String) (f : Comp → Except CErr Comp) :
    updateAtChildren (c :: cs) n rest f
      = (if c.name == n then
           match updateAt c rest f with
           | .ok c2 => .ok (c2 :: cs)
           | .error e => .error e
         else
           match updateAtChildren cs n rest f with
           | .ok cs2 => .ok (c :: cs2)
           | .error e => .error e) := by
  rw [updateAtChildren.eq_def]

/-- A local transformation that keeps the node's name and its
sibling-uniqueness keeps the whole tree's sibling-uniqueness when applied
at any position. -/
theorem su_updateAt (f : Comp → Except CErr Comp)
    (hfname : ∀ c c', f c = .ok c' → c'.name = c.name)
    (hfsu : ∀ c c', siblingsUnique c = true → f c = .ok c' →
      siblingsUnique c' = true) :
    ∀ (pos : List String) (t t' : Comp), siblingsUnique t = true →
      updateAt t pos f = .ok t' →
      siblingsUnique t' = true ∧ t'.name = t.name := by
  intro pos
  induction pos with
  | nil =>
    intro t t' ht hup
    rw [updateAt_nil] at hup
    exact ⟨hfsu t t' ht hup, hfname t t' hup⟩
  | cons n rest ih =>
    have aux : ∀ (cs : List Comp) (cs' : List Comp),
        namesNodup cs = true → siblingsUniqueList cs = true →
        updateAtChildren cs n rest f = .ok cs' →
        cs'.map Comp.name = cs.map Comp.name
        ∧ namesNodup cs' = true ∧ siblingsUniqueList cs' = true := by
      intro cs
      induction cs with
      | nil =>
        intro cs' hnd hsu hup
        rw [updateAtChildren.eq_def] at hup
        cases hup
      | cons c rest2 ihc =>
        intro cs' hnd hsu hup
        rw [namesNodup] at hnd
        rw [siblingsUniqueList] at hsu
        simp only [Bool.and_eq_true] at hnd hsu
        rw [updateAtChildren_cons] at hup
        cases hnm : (c.name == n) with
        | true =>
          rw [hnm, if_pos rfl] at hup
          cases hu : updateAt c rest f with
          | error e => rw [hu] at hup; cases hup
          | ok c2 =>
            rw [hu] at hup
            simp only [Except.ok.injEq] at hup
            subst hup
            obtain ⟨hc2su, hc2name⟩ := ih c c2 hsu.1 hu
            refine ⟨?_, ?_, ?_⟩
            · rw [List.map_cons, List.map_cons, hc2name]
            · rw [namesNodup, hc2name, hnd.1, hnd.2]
              rfl
            · rw [siblingsUniqueList, hc2su, hsu.2]
              rfl
        | false =>
          rw [hnm] at hup
          simp only [Bool.false_eq_true, if_false] at hup
          cases hrec : updateAtChildren rest2 n rest f with
          | error e => rw [hrec] at hup; cases hup
          | ok cs2 =>
            rw [hrec] at hup
            simp only [Except.ok.injEq] at hup
            subst hup
            obtain ⟨hnames, hnd2, hsu2⟩ := ihc cs2 hnd.2 hsu.2 hrec
            refine ⟨?_, ?_, ?_⟩
            · rw [List.map_cons, List.map_cons, hnames]
            · rw [namesNodup, hnd2, nameFresh_of_names_eq hnames, hnd.1]
              rfl
            · rw [siblingsUniqueList, hsu.1, hsu2]
              rfl
    intro t t' ht hup
    rw [updateAt_cons] at hup
    cases hch : updateAtChildren t.children n rest f with
    | error e => rw [hch] at hup; cases hup
    | ok cs' =>
      rw [hch] at hup
      simp only [Except.ok.injEq] at hup
      subst hup
      rw [siblingsUnique_eq] at ht
      simp only [Bool.and_eq_true] at ht
      obtain ⟨-, hnd', hsu'⟩ := aux t.children cs' ht.1 ht.2 hch
      refine ⟨?_, Comp.name_withChildren t cs'⟩
      rw [siblingsUnique_withChildren, hnd', hsu']
      rfl

theorem addChildF_name (reg : Registry) (ty nm : String) :
    ∀ c c', addChildF reg ty nm c = .ok c' → c'.name = c.name := by
  intro c c' h
  rw [addChildF] at h
  split_ifs at h
  cases hc : create reg ty nm with
  | error e => rw [hc] at h; cases h
  | ok fresh =>
    rw [hc] at h
    simp only [Except.ok.injEq] at h
    subst h
    exact Comp.name_withChildren c _

theorem create_su {reg : Registry} {ty nm : String} {fresh : Comp}
    (hreg : wfReg reg = true) (h : create reg ty nm = .ok fresh) :
    siblingsUnique fresh = true := by
  rw [create] at h
  cases hl : regLookupType reg ty with
  | none => rw [hl] at h; cases h
  | some e =>
    rw [hl] at h
    simp only [Except.ok.injEq] at h
    subst h
    rw [siblingsUnique_withName]
    rw [regLookupType] at hl
    have hmem : e ∈ reg := List.mem_of_find?_eq_some hl
    rw [wfReg] at hreg
    exact List.all_eq_true.mp hreg e hmem

theorem create_name {reg : Registry} {ty nm : String} {fresh : Comp}
    (h : create reg ty nm = .ok fresh) : fresh.name = nm := by
  rw [create] at h
  cases hl : regLookupType reg ty with
  | none => rw [hl] at h; cases h
  | some e =>
    rw [hl] at h
    simp only [Except.ok.injEq] at h
    subst h
    exact Comp.name_withName e.blueprint nm

theorem addChildF_su (reg : Registry) (ty nm : String)
    (hreg : wfReg reg = true) :
    ∀ c c', siblingsUnique c = true → addChildF reg ty nm c = .ok c' →
      siblingsUnique c' = true := by
  intro c c' hsu h
  rw [addChildF] at h
  cases hdup : (childNamed c nm).isSome with
  | true => rw [hdup, if_pos rfl] at h; cases h
  | false =>
    rw [hdup] at h
    simp only [Bool.false_eq_true, if_false] at h
    cases hc : create reg ty nm with
    | error e => rw [hc] at h; cases h
    | ok fresh =>
      rw [hc] at h
      simp only [Except.ok.injEq] at h
      subst h
      have hnone : childNamed c nm = none := by
        cases hx : childNamed c nm with
        | none => rfl
        | some y => rw [hx] at hdup; cases hdup
      rw [childNamed] at hnone
      have hfresh : nameFresh nm c.children = true := by
        rw [nameFresh_spec]
        intro x hx
        have := List.find?_eq_none.mp hnone x hx
        simpa using this
      rw [siblingsUnique_eq] at hsu
      simp only [Bool.and_eq_true] at hsu
      rw [siblingsUnique_withChildren]
      have h1 : namesNodup (c.children ++ [fresh]) = true := by
        apply namesNodup_append_singleton hsu.1
        rw [create_name hc]
        exact hfresh
      have h2 : siblingsUniqueList (c.children ++ [fresh]) = true :=
        siblingsUniqueList_append_singleton hsu.2 (create_su hreg hc)
      rw [h1, h2]
      rfl

theorem removeChildF_name (nm : String) :
    ∀ c c', removeChildF nm c = .ok c' → c'.name = c.name := by
  intro c c' h
  rw [removeChildF] at h
  split_ifs at h
  simp only [Except.ok.injEq] at h
  subst h
  exact Comp.name_withChildren c _

theorem removeChildF_su (nm : String) :
    ∀ c c', siblingsUnique c = true → removeChildF nm c = .ok c' →
      siblingsUnique c' = true := by
  intro c c' hsu h
  rw [removeChildF] at h
  split_ifs at h
  simp only [Except.ok.injEq] at h
  subst h
  have hsub : List.Sublist (c.children.eraseP (fun ch => ch.name == nm))
      c.children := List.eraseP_sublist c.children
  rw [siblingsUnique_eq] at hsu
  simp only [Bool.and_eq_true] at hsu
  rw [siblingsUnique_withChildren, namesNodup_sublist hsub hsu.1,
    siblingsUniqueList_sublist hsub hsu.2]
  rfl

theorem applyOp_su (reg : Registry) (hreg : wfReg reg = true) (t : Comp)
    (op : TreeOp) (ht : siblingsUnique t = true) :
    siblingsUnique (applyOp reg t op) = true := by
  cases op with
  | create pos ty nm =>
    rw [applyOp]
    cases hup : updateAt t pos (addChildF reg ty nm) with
    | error e => exact ht
    | ok t2 =>
      exact (su_updateAt (addChildF reg ty nm) (addChildF_name reg ty nm)
        (addChildF_su reg ty nm hreg) pos t t2 ht hup).1
  | remove pos nm =>
    rw [applyOp]
    cases hup : updateAt t pos (removeChildF nm) with
    | error e => exact ht
    | ok t2 =>
      exact (su_updateAt (removeChildF nm) (removeChildF_name nm)
        (removeChildF_su nm) pos t t2 ht hup).1

/-- An error of the local transformation at an existing position surfaces
unchanged from the tree rebuild. -/
theorem updateAt_error_of (f : Comp → Except CErr Comp) :
    ∀ (pos : List String) (t p : Comp) (e : CErr),
      getAtPath t pos = some p → f p = .error e →
      updateAt t pos f = .error e := by
  intro pos
  induction pos with
  | nil =>
    intro t p e hget hf
    rw [getAtPath_nil] at hget
    cases hget
    rw [updateAt_nil]
    exact hf
  | cons n rest ih =>
    intro t p e hget hf
    rw [getAtPath_cons] at hget
    cases hfind : childNamed t n with
    | none => rw [hfind] at hget; cases hget
    | some ch =>
      rw [hfind] at hget
      have aux : ∀ cs : List Comp,
          cs.find? (fun x => x.name == n) = some ch →
          updateAtChildren cs n rest f = .error e := by
        intro cs
        induction cs with
        | nil => intro hx; cases hx
        | cons c rest2 ihc =>
          intro hx
          rw [List.find?] at hx
          cases hnm : (c.name == n) with
          | true =>
            rw [hnm] at hx
            simp only [Option.some.injEq] at hx
            subst hx
            rw [updateAtChildren_cons, if_pos hnm, ih c p e hget hf]
          | false =>
            rw [hnm] at hx
            rw [updateAtChildren_cons, hnm]
            simp only [Bool.false_eq_true, if_false]
            rw [ihc hx]
      rw [childNamed] at hfind
      rw [updateAt_cons, aux t.children hfind]

/-- C6: from a tree satisfying the sibling-name invariant, every finite
sequence of `create_child`/`remove_child` operations keeps the invariant
after every step; a `create_child` whose sibling name already exists fails
`DuplicateName` and leaves the tree unchanged. Acyclicity and the
single-parent property hold intrinsically: the tree is an inductive value
in which every non-root component occurs in exactly one parent's children
list. -/
theorem c6_sequence_invariants (reg : Registry) (ops : List TreeOp)
    (t : Comp) (hreg : wfReg reg = true) (ht : siblingsUnique t = true) :
    siblingsUnique (applyOps reg t ops) = true
    ∧ (∀ pos ty nm p, getAtPath t pos = some p →
        (childNamed p nm).isSome = true →
        updateAt t pos (addChildF reg ty nm) = .error .DuplicateName
        ∧ applyOp reg t (.create pos ty nm) = t) := by
  constructor
  · induction ops generalizing t with
    | nil => exact ht
    | cons op ops ih =>
      rw [applyOps]
      exact ih (applyOp reg t op) (applyOp_su reg hreg t op ht)
  · intro pos ty nm p hget hdup
    have herr : updateAt t pos (addChildF reg ty nm)
        = .error .DuplicateName := by
      apply updateAt_error_of (addChildF reg ty nm) pos t p .DuplicateName hget
      rw [addChildF, if_pos hdup]
    refine ⟨herr, ?_⟩
    rw [applyOp, herr]

/-- Witness for C6: a create/duplicate-create/remove sequence on the
example tree keeps sibling names unique, and the duplicate `create_child`
of `c1` at the root is rejected with `DuplicateName`, leaving the tree as
it was. -/
theorem c6_witness :
    siblingsUnique
      (applyOps exReg exTreeA
        [.create [] "N" "n1", .create [] "N" "c1", .remove [] "n1"]) = true
    ∧ updateAt exTreeA [] (addChildF exReg "N" "c1")
        = .error .DuplicateName
    ∧ applyOp exReg exTreeA (.create [] "N" "c1") = exTreeA :=
  ⟨(c6_sequence_invariants exReg
      [.create [] "N" "n1", .create [] "N" "c1", .remove [] "n1"]
      exTreeA (by decide) (by decide)).1,
   ((c6_sequence_invariants exReg [] exTreeA (by decide) (by decide)).2
      [] "N" "c1" exTreeA rfl rfl).1,
   ((c6_sequence_invariants exReg [] exTreeA (by decide) (by decide)).2
      [] "N" "c1" exTreeA rfl rfl).2⟩

/-- Replace the signal table, keeping every other field. -/
def Comp.withSigs : Comp → List CSignal → Comp
  | .mk n k os ps _ cs, sg => .mk n k os ps sg cs

theorem Comp.name_withSigs (c : Comp) (sg : List CSignal) :
    (c.withSigs sg).name = c.name := by
  cases c
  rfl

theorem Comp.children_withSigs (c : Comp) (sg : List CSignal) :
    (c.withSigs sg).children = c.children := by
  cases c
  rfl

theorem Comp.sigs_withSigs (c : Comp) (sg : List CSignal) :
    (c.withSigs sg).sigs = sg := by
  cases c
  rfl

theorem Comp.sigs_withChildren (c : Comp) (cs : List Comp) :
    (c.withChildren cs).sigs = c.sigs := by
  cases c
  rfl

/-- Modelled from the spec: §4.5 — bind a handler into one instance's
table: a name already bound is rebound in place, a new name is appended. -/
def sigsBind (ss : List CSignal) (s : CSignal) : List CSignal :=
  if ss.any (fun x => x.name == s.name) then
    ss.map (fun x => if x.name == s.name then s else x)
  else ss ++ [s]

/-- Modelled from the spec: §4.5 `register_signal` — attach the handler to
the one component instance the call is made on. -/
def regSignalF (s : CSignal) (c : Comp) : Except CErr Comp :=
  .ok (c.withSigs (sigsBind c.sigs s))

/-- Register (or rebind) a signal on the instance at `pos`. -/
def registerSignalAt (t : Comp) (pos : List String) (s : CSignal) :
    Except CErr Comp :=
  updateAt t pos (regSignalF s)

/-- Dispatch inside one instance's signal table: the handler bound under
the name, `UnknownSignal` when the instance binds none of that name. -/
def invokeSigs (ss : List CSignal) (n : String) : Except CErr Nat :=
  match ss.find? (fun s => s.name == n) with
  | none => .error .UnknownSignal
  | some s => .ok s.handler

/-- Modelled from the spec: §4.5 `invoke` — look up the handler bound in
the target instance's own table (the handler id stands for the bound
closure). -/
def invoke (t : Comp) (pos : List String) (n : String) : Except CErr Nat :=
  match getAtPath t pos with
  | none => .error .ComponentNotFound
  | some c => invokeSigs c.sigs n

theorem childNamed_congr {c c' : Comp} (h : c'.children = c.children)
    (m : String) : childNamed c' m = childNamed c m := by
  rw [childNamed, childNamed, h]

theorem updateAt_name (f : Comp → Except CErr Comp)
    (hfname : ∀ c c', f c = .ok c' → c'.name = c.name) :
    ∀ (pos : List String) (t t' : Comp), updateAt t pos f = .ok t' →
      t'.name = t.name := by
  intro pos
  induction pos with
  | nil =>
    intro t t' h
    rw [updateAt_nil] at h
    exact hfname t t' h
  | cons n rest ih =>
    intro t t' h
    rw [updateAt_cons] at h
    cases hch : updateAtChildren t.children n rest f with
    | error e => rw [hch] at h; cases h
    | ok cs' =>
      rw [hch] at h
      simp only [Except.ok.injEq] at h
      subst h
      exact Comp.name_withChildren t cs'

/-- Rebuilding the tree with a local, children-preserving transformation
at `pos` touches nothing observable at any other position: the occupant's
signal table (and in fact the whole walk) away from `pos` is as before. -/
theorem updateAt_frame (f : Comp → Except CErr Comp)
    (hfname : ∀ c c', f c = .ok c' → c'.name = c.name)
    (hfch : ∀ c c', f c = .ok c' → c'.children = c.children) :
    ∀ (pos : List String) (t t' : Comp), updateAt t pos f = .ok t' →
      (∃ p p', getAtPath t pos = some p ∧ f p = .ok p'
        ∧ getAtPath t' pos = some p')
      ∧ (∀ pos', pos' ≠ pos →
          (getAtPath t' pos').map Comp.sigs
            = (getAtPath t pos').map Comp.sigs) := by
  intro pos
  induction pos with
  | nil =>
    intro t t' h
    rw [updateAt_nil] at h
    constructor
    · exact ⟨t, t', getAtPath_nil t, h, getAtPath_nil t'⟩
    · intro pos' hne
      cases pos' with
      | nil => exact absurd rfl hne
      | cons m r =>
        rw [getAtPath_cons, getAtPath_cons,
          childNamed_congr (hfch t t' h) m]
  | cons n rest ih =>
    have aux : ∀ (cs cs' : List Comp),
        updateAtChildren cs n rest f = .ok cs' →
        (∃ ch ch', cs.find? (fun x => x.name == n) = some ch
          ∧ updateAt ch rest f = .ok ch'
          ∧ cs'.find? (fun x => x.name == n) = some ch')
        ∧ (∀ m, (m == n) = false →
            cs'.find? (fun x => x.name == m)
              = cs.find? (fun x => x.name == m)) := by
      intro cs
      induction cs with
      | nil =>
        intro cs' h
        rw [updateAtChildren.eq_def] at h
        cases h
      | cons c rest2 ihc =>
        intro cs' h
        rw [updateAtChildren_cons] at h
        cases hnm : (c.name == n) with
        | true =>
          rw [hnm, if_pos rfl] at h
          cases hu : updateAt c rest f with
          | error e => rw [hu] at h; cases h
          | ok c2 =>
            rw [hu] at h
            simp only [Except.ok.injEq] at h
            subst h
            have hc2name : c2.name = c.name :=
              updateAt_name f hfname rest c c2 hu
            constructor
            · refine ⟨c, c2, ?_, hu, ?_⟩
              · rw [List.find?, hnm]
              · rw [List.find?, hc2name, hnm]
            · intro m hm
              rw [List.find?, List.find?, hc2name]
              cases hcm : (c.name == m) with
              | true =>
                have hmn : m = n := by
                  have h1 : c.name = m := eq_of_beq hcm
                  have h2 : c.name = n := eq_of_beq hnm
                  rw [← h1, h2]
                rw [hmn, beq_self_eq_true] at hm
                exact Bool.noConfusion hm
              | false => rfl
        | false =>
          rw [hnm] at h
          simp only [Bool.false_eq_true, if_false] at h
          cases hrec : updateAtChildren rest2 n rest f with
          | error e => rw [hrec] at h; cases h
          | ok cs2 =>
            rw [hrec] at h
            simp only [Except.ok.injEq] at h
            subst h
            obtain ⟨⟨ch, ch', hfind, hu, hfind'⟩, hframe⟩ := ihc cs2 hrec
            constructor
            · refine ⟨ch, ch', ?_, hu, ?_⟩
              · rw [List.find?, hnm]
                exact hfind
              · rw [List.find?, hnm]
                exact hfind'
            · intro m hm
              rw [List.find?, List.find?]
              cases hcm : (c.name == m) with
              | true => rfl
              | false => exact hframe m hm
    intro t t' h
    rw [updateAt_cons] at h
    cases hch : updateAtChildren t.children n rest f with
    | error e => rw [hch] at h; cases h
    | ok cs' =>
      rw [hch] at h
      simp only [Except.ok.injEq] at h
      subst h
      obtain ⟨⟨ch, ch', hfind, hu, hfind'⟩, hframe⟩ := aux t.children cs' hch
      obtain ⟨⟨p, p', hp, hfp, hp'⟩, hrestframe⟩ := ih ch ch' hu
      constructor
      · refine ⟨p, p', ?_, hfp, ?_⟩
        · rw [getAtPath_cons, childNamed, hfind]
          exact hp
        · rw [getAtPath_cons, childNamed,
            Comp.children_withChildren, hfind']
          exact hp'
      · intro pos' hne
        cases pos' with
        | nil =>
          rw [getAtPath_nil, getAtPath_nil, Option.map_some',
            Option.map_some', Comp.sigs_withChildren]
        | cons m r =>
          cases hmn : (m == n) with
          | false =>
            rw [getAtPath_cons, getAtPath_cons, childNamed, childNamed,
              Comp.children_withChildren, hframe m hmn]
          | true =>
            have hm : m = n := eq_of_beq hmn
            subst hm
            have hr : r ≠ rest := by
              intro hr
              exact hne (by rw [hr])
            rw [getAtPath_cons, getAtPath_cons, childNamed, childNamed,
              Comp.children_withChildren, hfind, hfind']
            exact hrestframe r hr

theorem find?_append_none {α : Type} {l1 l2 : List α} {p : α → Bool}
    (h : l1.find? p = none) : (l1 ++ l2).find? p = l2.find? p := by
  induction l1 with
  | nil => rfl
  | cons x xs ih =>
    rw [List.find?] at h
    cases hp : p x with
    | true => rw [hp] at h; cases h
    | false =>
      rw [hp] at h
      rw [List.cons_append, List.find?, hp]
      exact ih h

/-- Rebinding in place resolves the name to the new handler. -/
theorem sigsBind_find_map (s : CSignal) :
    ∀ ss : List CSignal, ss.any (fun x => x.name == s.name) = true →
      (ss.map (fun x => if x.name == s.name then s else x)).find?
        (fun x => x.name == s.name) = some s := by
  intro ss
  induction ss with
  | nil => intro h; cases h
  | cons x xs ih =>
    intro hany
    rw [List.any_cons] at hany
    rw [List.map_cons]
    cases hx : (x.name == s.name) with
    | true =>
      rw [if_pos rfl, List.find?]
      rw [beq_self_eq_true]
    | false =>
      rw [if_neg Bool.false_ne_true, List.find?, hx]
      rw [hx, Bool.false_or] at hany
      show List.find? (fun x => x.name == s.name)
        (List.map (fun x => if x.name == s.name then s else x) xs) = some s
      exact ih hany

/-- After binding, the instance's own table resolves the signal name to
the newly bound handler. -/
theorem sigsBind_find (ss : List CSignal) (s : CSignal) :
    (sigsBind ss s).find? (fun x => x.name == s.name) = some s := by
  rw [sigsBind]
  cases hany : ss.any (fun x => x.name == s.name) with
  | true =>
    rw [if_pos rfl]
    exact sigsBind_find_map s ss hany
  | false =>
    simp only [Bool.false_eq_true, if_false]
    have hnone : ss.find? (fun x => x.name == s.name) = none := by
      rw [List.find?_eq_none]
      intro x hx hcontra
      have hall := List.any_eq_true.not.mp (by rw [hany]; exact Bool.false_ne_true)
      exact hall ⟨x, hx, hcontra⟩
    rw [find?_append_none hnone, List.find?, beq_self_eq_true]

theorem regSignalF_name (s : CSignal) :
    ∀ c c', regSignalF s c = .ok c' → c'.name = c.name := by
  intro c c' h
  rw [regSignalF] at h
  simp only [Except.ok.injEq] at h
  subst h
  exact Comp.name_withSigs c _

theorem regSignalF_children (s : CSignal) :
    ∀ c c', regSignalF s c = .ok c' → c'.children = c.children := by
  intro c c' h
  rw [regSignalF] at h
  simp only [Except.ok.injEq] at h
  subst h
  exact Comp.children_withSigs c _

theorem invoke_congr {t t' : Comp} {p : List String}
    (h : (getAtPath t' p).map Comp.sigs = (getAtPath t p).map Comp.sigs)
    (n : String) : invoke t' p n = invoke t p n := by
  rw [invoke, invoke]
  cases h1 : getAtPath t' p with
  | none =>
    rw [h1] at h
    cases h2 : getAtPath t p with
    | none => rfl
    | some b => rw [h2] at h; cases h
  | some a =>
    rw [h1] at h
    cases h2 : getAtPath t p with
    | none => rw [h2] at h; cases h
    | some b =>
      rw [h2] at h
      simp only [Option.map_some', Option.some.injEq] at h
      show invokeSigs a.sigs n = invokeSigs b.sigs n
      rw [h]

/-- C8: `register_signal` touches only the one instance it is called on —
after registering (or rebinding) a signal on the instance at `pos`, every
other position's signal table, and hence every `invoke` outcome there, is
exactly as before; and `invoke` at `pos` dispatches to the handler just
bound on that instance, not to any type-wide shared handler. -/
theorem c8_register_signal_per_instance (t t' : Comp) (pos : List String)
    (s : CSignal) (hup : registerSignalAt t pos s = .ok t') :
    (∀ pos', pos' ≠ pos →
       (getAtPath t' pos').map Comp.sigs = (getAtPath t pos').map Comp.sigs
       ∧ ∀ n, invoke t' pos' n = invoke t pos' n)
    ∧ invoke t' pos s.name = .ok s.handler := by
  rw [registerSignalAt] at hup
  obtain ⟨⟨p, p', hp, hfp, hp'⟩, hframe⟩ :=
    updateAt_frame (regSignalF s) (regSignalF_name s) (regSignalF_children s)
      pos t t' hup
  constructor
  · intro pos' hne
    refine ⟨hframe pos' hne, fun n => invoke_congr (hframe pos' hne) n⟩
  · rw [regSignalF] at hfp
    simp only [Except.ok.injEq] at hfp
    subst hfp
    rw [invoke, hp']
    show invokeSigs (p.withSigs (sigsBind p.sigs s)).sigs s.name
      = Except.ok s.handler
    rw [Comp.sigs_withSigs, invokeSigs, sigsBind_find]

/-- A handler as `goToTarget` would be bound on one `NLink` instance. -/
def exSig : CSignal :=
  { name := "go_to_target", descr := "go to the link target", handler := 42 }

/-- `exTreeA` after binding `exSig` on the `c1` instance only. -/
def exTreeA2 : Comp :=
  .mk "Root" .normal [] [] []
    [ .mk "c1" .normal [] [] [exSig]
        [ .mk "g1" .normal [] [] [] [] ],
      .mk "alias" (.link ["c1"]) [] [] [] [] ]

/-- Witness for C8: binding a signal on `c1` leaves the sibling
`alias` instance's table (and invoke outcome) unchanged, and `invoke` on
`c1` dispatches to the newly bound handler. -/
theorem c8_witness :
    ((getAtPath exTreeA2 ["alias"]).map Comp.sigs
        = (getAtPath exTreeA ["alias"]).map Comp.sigs
      ∧ ∀ n, invoke exTreeA2 ["alias"] n = invoke exTreeA ["alias"] n)
    ∧ invoke exTreeA2 ["c1"] "go_to_target" = .ok 42 :=
  ⟨(c8_register_signal_per_instance exTreeA exTreeA2 ["c1"] exSig
      (by simp [registerSignalAt, updateAt, updateAtChildren, regSignalF,
        sigsBind, Comp.name, Comp.children, Comp.withChildren, Comp.withSigs,
        Comp.sigs, exTreeA, exTreeA2, exSig])).1 ["alias"] (by decide),
   (c8_register_signal_per_instance exTreeA exTreeA2 ["c1"] exSig
      (by simp [registerSignalAt, updateAt, updateAtChildren, regSignalF,
        sigsBind, Comp.name, Comp.children, Comp.withChildren, Comp.withSigs,
        Comp.sigs, exTreeA, exTreeA2, exSig])).2⟩

/-- Does the component expose an Option of this name? -/
def hasOpt (c : Comp) (n : String) : Bool :=
  c.opts.any (fun o => o.name == n)

mutual

/-- Modelled from the spec: §4.3 `configure_recursively(name, value)` —
apply `configure` to the target and to every descendant that exposes an
Option of that name, skipping (not failing on) every component that lacks
it; a failing `configure` on an exposing component surfaces its error. -/
def configureRec (n : String) (v : Value) : Comp → Except CErr Comp
  | .mk nm k os ps sg cs =>
    match (if os.any (fun o => o.name == n) then
             (optsConfigure os n v).map (fun p => p.1)
           else .ok os) with
    | .error e => .error e
    | .ok os' =>
      match configureRecList n v cs with
      | .error e => .error e
      | .ok cs' => .ok (.mk nm k os' ps sg cs')

/-- `configureRec` on every child in order. -/
def configureRecList (n : String) (v : Value) :
    List Comp → Except CErr (List Comp)
  | [] => .ok []
  | c :: cs =>
    match configureRec n v c with
    | .error e => .error e
    | .ok c' =>
      match configureRecList n v cs with
      | .error e => .error e
      | .ok cs' => .ok (c' :: cs')

end

mutual

/-- The component itself and all of its descendants, depth first. -/
def allNodes : Comp → List Comp
  | .mk nm k os ps sg cs => .mk nm k os ps sg cs :: allNodesList cs

/-- `allNodes` over a children list. -/
def allNodesList : List Comp → List Comp
  | [] => []
  | c :: cs => allNodes c ++ allNodesList cs

end

/-- Did the fallible computation succeed? -/
def isOkE {ε α : Type} : Except ε α → Bool
  | .ok _ => true
  | .error _ => false

theorem isOkE_iff {ε α : Type} (e : Except ε α) :
    isOkE e = true ↔ ∃ a, e = .ok a := by
  cases e with
  | ok a => simp [isOkE]
  | error x => simp [isOkE]

/-- Strong induction over the component tree: to prove a property of every
component it suffices to derive it from its truth on all children. -/
theorem comp_strong_induct (motive : Comp → Prop)
    (h : ∀ c : Comp, (∀ ch ∈ c.children, motive ch) → motive c) :
    ∀ c, motive c := by
  have key : ∀ (k : Nat) (c : Comp), sizeOf c ≤ k → motive c := by
    intro k
    induction k with
    | zero =>
      intro c hc
      cases c with
      | mk nm kd os ps sg cs =>
        rw [Comp.mk.sizeOf_spec] at hc
        omega
    | succ k ih =>
      intro c hc
      apply h
      intro ch hch
      apply ih
      have hlt := List.sizeOf_lt_of_mem hch
      cases c with
      | mk nm kd os ps sg cs =>
        rw [Comp.mk.sizeOf_spec] at hc
        rw [Comp.children] at hch hlt
        omega
  exact fun c => key (sizeOf c) c (le_refl _)

theorem allNodes_self (c : Comp) : c ∈ allNodes c := by
  cases c with
  | mk nm k os ps sg cs =>
    rw [allNodes]
    exact List.mem_cons_self _ _

theorem allNodesList_sub {ch : Comp} {cs : List Comp} (hch : ch ∈ cs) :
    ∀ x ∈ allNodes ch, x ∈ allNodesList cs := by
  induction cs with
  | nil => cases hch
  | cons d ds ih =>
    intro x hx
    rw [allNodesList]
    rcases List.mem_cons.mp hch with rfl | hmem
    · exact List.mem_append_left _ hx
    · exact List.mem_append_right _ (ih hmem x hx)

theorem allNodes_child {c ch : Comp} (hch : ch ∈ c.children) :
    ∀ x ∈ allNodes ch, x ∈ allNodes c := by
  cases c with
  | mk nm k os ps sg cs =>
    rw [Comp.children] at hch
    intro x hx
    rw [allNodes]
    exact List.mem_cons_of_mem _ (allNodesList_sub hch x hx)

theorem find?_name_of_mem_nodup {cs : List Comp} {ch : Comp}
    (hnd : namesNodup cs = true) (hch : ch ∈ cs) :
    cs.find? (fun x => x.name == ch.name) = some ch := by
  induction cs with
  | nil => cases hch
  | cons d ds ih =>
    rw [namesNodup] at hnd
    simp only [Bool.and_eq_true] at hnd
    rcases List.mem_cons.mp hch with rfl | hmem
    · rw [List.find?, beq_self_eq_true]
    · rw [List.find?]
      have hne : d.name ≠ ch.name := by
        have hx := nameFresh_spec.mp hnd.1 ch hmem
        intro hy
        exact hx hy.symm
      cases hd : (d.name == ch.name) with
      | true => exact absurd (eq_of_beq hd) hne
      | false => exact ih hnd.2 hmem

/-- How `configure_recursively` maps the occupant of every position: names,
kinds, properties and signal tables are untouched everywhere; the option
store is configured exactly on the components exposing the option and left
exactly as it was on the components lacking it. -/
def NodeMap (n : String) (v : Value) (a b : Comp) : Prop :=
  ∀ pos node, getAtPath a pos = some node →
    ∃ node', getAtPath b pos = some node'
      ∧ node'.name = node.name ∧ node'.kind = node.kind
      ∧ node'.props = node.props ∧ node'.sigs = node.sigs
      ∧ (hasOpt node n = true →
          ∃ fired, optsConfigure node.opts n v = .ok (node'.opts, fired))
      ∧ (hasOpt node n = false → node'.opts = node.opts)

theorem find?_name_forall2 {R : Comp → Comp → Prop}
    (hR : ∀ a b, R a b → b.name = a.name) :
    ∀ {ds ds' : List Comp}, List.Forall₂ R ds ds' → ∀ m : String,
      (∀ a, ds.find? (fun x => x.name == m) = some a →
        ∃ b, ds'.find? (fun x => x.name == m) = some b ∧ R a b) := by
  intro ds ds' hf
  induction hf with
  | nil => intro m a ha; cases ha
  | cons hab htail ih =>
    intro m a ha
    rename_i x y ds0 ds0'
    rw [List.find?] at ha
    rw [List.find?, hR x y hab]
    cases hx : (x.name == m) with
    | true =>
      rw [hx] at ha
      simp only [Option.some.injEq] at ha
      subst ha
      exact ⟨y, rfl, hab⟩
    | false =>
      rw [hx] at ha
      exact ih m a ha

/-- C7: on a tree whose exposing components all accept the value, the
recursive configure succeeds — in particular it does not fail on any
component lacking the option — and the result is the `NodeMap` image: the
option store is configured on the target and exactly those descendants
exposing the named option, every other component's store and every
component's other observables are unchanged. -/
theorem c7_configure_recursively (c : Comp) (n : String) (v : Value)
    (hsu : siblingsUnique c = true)
    (H : ∀ node ∈ allNodes c, hasOpt node n = true →
      isOkE (optsConfigure node.opts n v) = true) :
    ∃ c', configureRec n v c = .ok c' ∧ NodeMap n v c c' := by
  induction c using comp_strong_induct with
  | _ c hih =>
    cases c with
    | mk nm k os ps sg cs =>
      rw [siblingsUnique_mk] at hsu
      simp only [Bool.and_eq_true] at hsu
      have hosr : ∃ os',
          (if os.any (fun o => o.name == n) then
             (optsConfigure os n v).map (fun p => p.1)
           else .ok os) = .ok os'
          ∧ (hasOpt (Comp.mk nm k os ps sg cs) n = true →
              ∃ fired, optsConfigure os n v = .ok (os', fired))
          ∧ (hasOpt (Comp.mk nm k os ps sg cs) n = false → os' = os) := by
        cases hany : os.any (fun o => o.name == n) with
        | true =>
          have hok := H (Comp.mk nm k os ps sg cs)
            (allNodes_self _) (by rw [hasOpt, Comp.opts]; exact hany)
          rw [Comp.opts, isOkE_iff] at hok
          obtain ⟨⟨os', fired⟩, hos⟩ := hok
          refine ⟨os', ?_, ?_, ?_⟩
          · rw [if_pos rfl, hos]
            rfl
          · intro _
            exact ⟨fired, hos⟩
          · intro hcontra
            rw [hasOpt, Comp.opts, hany] at hcontra
            exact Bool.noConfusion hcontra
        | false =>
          refine ⟨os, ?_, ?_, fun _ => rfl⟩
          · rw [if_neg Bool.false_ne_true]
          · intro hcontra
            rw [hasOpt, Comp.opts, hany] at hcontra
            exact Bool.noConfusion hcontra
      obtain ⟨os', hosr, hosyes, hosno⟩ := hosr
      have hlist : ∃ cs', configureRecList n v cs = .ok cs'
          ∧ List.Forall₂
              (fun a b => NodeMap n v a b ∧ b.name = a.name) cs cs' := by
        have hchsu : ∀ ch ∈ cs, siblingsUnique ch = true :=
          fun ch hch => siblingsUniqueList_mem hsu.2 hch
        have hchH : ∀ ch ∈ cs, ∀ node ∈ allNodes ch,
            hasOpt node n = true →
            isOkE (optsConfigure node.opts n v) = true := by
          intro ch hch node hnode hopt
          exact H node
            (allNodes_child (c := Comp.mk nm k os ps sg cs)
              (by rw [Comp.children]; exact hch) node hnode) hopt
        have hchih : ∀ ch ∈ cs, ∀ (hsu2 : siblingsUnique ch = true)
            (H2 : ∀ node ∈ allNodes ch, hasOpt node n = true →
              isOkE (optsConfigure node.opts n v) = true),
            ∃ ch', configureRec n v ch = .ok ch' ∧ NodeMap n v ch ch' := by
          intro ch hch hsu2 H2
          exact hih ch (by rw [Comp.children]; exact hch) hsu2 H2
        clear hih H hsu hosr hosyes hosno
        induction cs with
        | nil => exact ⟨[], rfl, List.Forall₂.nil⟩
        | cons d ds ih =>
          obtain ⟨d', hd', hmapd⟩ :=
            hchih d (List.mem_cons_self _ _) (hchsu d (List.mem_cons_self _ _))
              (hchH d (List.mem_cons_self _ _))
          obtain ⟨ds', hds', hf2⟩ := ih
            (fun ch hch => hchsu ch (List.mem_cons_of_mem _ hch))
            (fun ch hch => hchH ch (List.mem_cons_of_mem _ hch))
            (fun ch hch => hchih ch (List.mem_cons_of_mem _ hch))
          refine ⟨d' :: ds', ?_, ?_⟩
          · rw [configureRecList, hd', hds']
          · have hdname : d'.name = d.name := by
              obtain ⟨node', hg, hname, -⟩ := hmapd [] d (getAtPath_nil d)
              rw [getAtPath_nil] at hg
              cases hg
              exact hname
            exact List.Forall₂.cons ⟨hmapd, hdname⟩ hf2
      obtain ⟨cs', hcs', hf2⟩ := hlist
      refine ⟨Comp.mk nm k os' ps sg cs', ?_, ?_⟩
      · rw [configureRec, hosr, hcs']
      · intro pos node hget
        cases pos with
        | nil =>
          rw [getAtPath_nil] at hget
          cases hget
          refine ⟨Comp.mk nm k os' ps sg cs', getAtPath_nil _,
            rfl, rfl, rfl, rfl, ?_, ?_⟩
          · intro hyes
            obtain ⟨fired, hf⟩ := hosyes hyes
            exact ⟨fired, by rw [Comp.opts]; exact hf⟩
          · intro hno
            rw [Comp.opts, Comp.opts]
            exact (hosno hno).symm ▸ rfl
        | cons m r =>
          rw [getAtPath_cons, childNamed, Comp.children] at hget
          cases hfind : cs.find? (fun x => x.name == m) with
          | none => rw [hfind] at hget; cases hget
          | some ch =>
            rw [hfind] at hget
            obtain ⟨ch', hfind', hmap, -⟩ :=
              find?_name_forall2 (fun a b hab => hab.2) hf2 m ch hfind
            obtain ⟨node', hg', hrest⟩ := hmap r node hget
            refine ⟨node', ?_, hrest⟩
            rw [getAtPath_cons, childNamed, Comp.children, hfind']
            exact hg'

/-- A tree as the SFDM solver test configures it: the target and one
descendant expose the option, another descendant lacks it. -/
def exCfgTree : Comp :=
  .mk "solver" .normal [exOpt] [] []
    [ .mk "iterate" .normal [] [] [] [],
      .mk "inner" .normal [exOpt] [] [] [] ]

/-- Witness for C7 on `exCfgTree`. -/
theorem c7_witness :
    ∃ c', configureRec "dimension" (.vUInt 2) exCfgTree = .ok c'
      ∧ NodeMap "dimension" (.vUInt 2) exCfgTree c' :=
  c7_configure_recursively exCfgTree "dimension" (.vUInt 2) (by decide)
    (by decide)

/-- `Mesh::Tags::nodes()`: the name tag of the nodes Link child
(`CMesh.cpp` line 54; the tag's definition sits outside this excerpt). -/
def meshTagNodes : String := "nodes"

/-- The handler id standing for the bound
`boost::bind(&CMesh::signal_write_mesh, this, _1)` closure. -/
def writeMeshHandlerId : Nat := 0

/-- Embedded from `CMesh::CMesh` (src/src/Mesh/CMesh.cpp lines 42-61): the
constructor adds the properties `nb_cells`, `nb_nodes`, `dimensionality`
(each `Uint(0)`), adds the option `dimension` (`OptionT<Uint>`, default 0)
linked via `link_to` to the `m_dimension` field (bound external storage,
initially 0), then creates the four static children — the `CLink` named by
`Mesh::Tags::nodes()` (its target not yet set), `elements`, `topology`,
`metadata` — and registers the `write_mesh` signal with its handler bound
to this instance. (`mark_basic()` manipulates the tag set, which is outside
the modelled state; the signature handler of line 60 shares the signal's
table entry.) -/
def cmeshNew (name : String) : Comp :=
  Comp.mk name .normal
    [{ name := "dimension", declType := .tUInt, defVal := .vUInt 0,
       current := .vUInt 0, bound := some (.vUInt 0), triggers := [],
       restr := .free, locked := false, wasSet := false }]
    [("nb_cells", .vUInt 0), ("nb_nodes", .vUInt 0),
     ("dimensionality", .vUInt 0)]
    [{ name := "write_mesh",
       descr := "Write mesh, guessing automatically the format",
       handler := writeMeshHandlerId }]
    [Comp.mk meshTagNodes (.link []) [] [] [] [],
     Comp.mk "elements" .normal [] [] [] [],
     Comp.mk "topology" .normal [] [] [] [],
     Comp.mk "metadata" .normal [] [] [] []]

/-- The value of the named property. -/
def propLookup (c : Comp) (n : String) : Option Value :=
  (c.props.find? (fun p => p.1 == n)).map (fun p => p.2)

/-- C9: every `CMesh` instance, immediately after construction, owns
exactly the four static children — the Link named by `Mesh::Tags::nodes()`
first, then `elements`, `topology` and `metadata`, the latter three plain
components — exposes the properties `nb_cells`, `nb_nodes` and
`dimensionality` all initialized to 0, exposes a `dimension` option of
unsigned-integer type, current value 0, bound to the external `m_dimension`
storage, and has the `write_mesh` signal registered in its own table. -/
theorem c9_cmesh_constructor (name : String) :
    (cmeshNew name).children.map Comp.name
      = [meshTagNodes, "elements", "topology", "metadata"]
    ∧ (∃ t, (cmeshNew name).children.map Comp.kind
        = [.link t, .normal, .normal, .normal])
    ∧ propLookup (cmeshNew name) "nb_cells" = some (.vUInt 0)
    ∧ propLookup (cmeshNew name) "nb_nodes" = some (.vUInt 0)
    ∧ propLookup (cmeshNew name) "dimensionality" = some (.vUInt 0)
    ∧ (∃ o, optLookup (cmeshNew name) "dimension" = some o
        ∧ o.declType = .tUInt ∧ o.current = .vUInt 0 ∧ o.bound.isSome = true
        ∧ o.locked = false)
    ∧ (cmeshNew name).sigs.map CSignal.name = ["write_mesh"]
    ∧ invoke (cmeshNew name) [] "write_mesh" = .ok writeMeshHandlerId := by
  refine ⟨rfl, ⟨[], rfl⟩, rfl, rfl, rfl, ⟨_, rfl, rfl, rfl, rfl, rfl⟩,
    rfl, rfl⟩

/-- Embedded from `CMesh::signal_write_mesh` (src/src/Mesh/CMesh.cpp lines
260-293): the signal creates a child `WriteMesh` component named `writer`,
reads the `file` argument and the field selections from the signal options
and writes the mesh through the writer (file output — outside the tree
state this embedding models), then removes the writer child again by name
before returning. -/
def signal_write_mesh (mesh : Comp) : Comp :=
  let mesh1 := mesh.withChildren
    (mesh.children ++ [Comp.mk "writer" .normal [] [] [] []])
  mesh1.withChildren
    (mesh1.children.eraseP (fun ch => ch.name == "writer"))

theorem eraseP_append_singleton {cs : List Comp} {w : Comp}
    {p : Comp → Bool} (hcs : ∀ c ∈ cs, p c = false) (hw : p w = true) :
    (cs ++ [w]).eraseP p = cs := by
  induction cs with
  | nil =>
    rw [List.nil_append]
    rw [List.eraseP_cons, hw]
    rfl
  | cons c rest ih =>
    rw [List.cons_append, List.eraseP_cons, hcs c (List.mem_cons_self c rest)]
    rw [ih (fun x hx => hcs x (List.mem_cons_of_mem c hx))]
    rfl

/-- C10: on a mesh that has no child named `writer`, a completed
`signal_write_mesh` leaves the mesh's children exactly as they were (the
`writer` child it creates is removed again before returning), and every
other field of the mesh is untouched. -/
theorem c10_write_mesh_frame (mesh : Comp)
    (h : ∀ c ∈ mesh.children, c.name ≠ "writer") :
    (signal_write_mesh mesh).children = mesh.children
    ∧ (signal_write_mesh mesh).name = mesh.name
    ∧ (signal_write_mesh mesh).kind = mesh.kind
    ∧ (signal_write_mesh mesh).opts = mesh.opts
    ∧ (signal_write_mesh mesh).props = mesh.props
    ∧ (signal_write_mesh mesh).sigs = mesh.sigs := by
  cases mesh with
  | mk nm k os ps sg cs =>
    rw [Comp.children] at h
    have herase : ((cs ++ [Comp.mk "writer" .normal [] [] [] []]).eraseP
        (fun ch => ch.name == "writer")) = cs := by
      apply eraseP_append_singleton
      · intro c hc
        rw [beq_eq_false_iff_ne]
        exact h c hc
      · rw [Comp.name]
        exact beq_self_eq_true "writer"
    refine ⟨?_, rfl, rfl, rfl, rfl, rfl⟩
    show ((cs ++ [Comp.mk "writer" .normal [] [] [] []]).eraseP
        (fun ch => ch.name == "writer")) = cs
    exact herase

/-- Witness for C10 on a freshly constructed `CMesh`: none of its four
static children is named `writer`, so `signal_write_mesh` restores the
children exactly. -/
theorem c10_witness :
    (signal_write_mesh (cmeshNew "mesh")).children
      = (cmeshNew "mesh").children :=
  (c10_write_mesh_frame (cmeshNew "mesh") (by decide)).1

end CF3
